import Mathlib

/-!
Shallow embedding of the 2D rendering core of the uefapi repository
(src/gfx.rs, with the differing blend channel of src/gfx2.rs), together
with theorems settling the specification claims about it.

Conventions of the embedding:
* Rust i32 values are modelled as Int (no arithmetic in the modelled code
  comes near i32 overflow for the inputs considered).
* Rust u8/u32 channel arithmetic is modelled on Nat; the final
  "as u8" cast of a u32 value is modelled by u8cast (reduction mod 256).
* Rust operations that can be fatal (u32 division by zero, slice indexing
  out of bounds) are modelled in the Option monad: none models the fatal
  outcome, some the normal return.
-/

namespace gfx

/-- A 2D point with i32 coordinates (gfx.rs, struct Pos). -/
structure Pos where
  x : Int
  y : Int
deriving DecidableEq

/-- Constructor function pos (gfx.rs). -/
def pos (x y : Int) : Pos := ⟨x, y⟩

instance : Add Pos := ⟨fun a b => ⟨a.x + b.x, a.y + b.y⟩⟩

instance : Sub Pos := ⟨fun a b => ⟨a.x - b.x, a.y - b.y⟩⟩

@[simp] theorem Pos.add_x (a b : Pos) : (a + b).x = a.x + b.x := rfl

@[simp] theorem Pos.add_y (a b : Pos) : (a + b).y = a.y + b.y := rfl

@[simp] theorem Pos.sub_x (a b : Pos) : (a - b).x = a.x - b.x := rfl

@[simp] theorem Pos.sub_y (a b : Pos) : (a - b).y = a.y - b.y := rfl

/-- A 2D extent with i32 components (gfx.rs, struct Dim). -/
structure Dim where
  w : Int
  h : Int
deriving DecidableEq

/-- Constructor function dim (gfx.rs). -/
def dim (w h : Int) : Dim := ⟨w, h⟩

/-- Pos::dim (gfx.rs). -/
def Pos.dim (p : Pos) : Dim := ⟨p.x, p.y⟩

/-- Dim::pos (gfx.rs). -/
def Dim.pos (d : Dim) : Pos := ⟨d.w, d.h⟩

/-- An origin-plus-extent rectangle (gfx.rs, struct Rect). -/
structure Rect where
  pos : Pos
  dim : Dim
deriving DecidableEq

/-- Constructor function rect (gfx.rs). -/
def rect (pos : Pos) (dim : Dim) : Rect := ⟨pos, dim⟩

/-- A half-open box given by two corners (gfx.rs, struct Area). -/
structure Area where
  pos1 : Pos
  pos2 : Pos
deriving DecidableEq

/-- Constructor function area (gfx.rs). -/
def area (pos1 pos2 : Pos) : Area := ⟨pos1, pos2⟩

/-- Rect::area (gfx.rs). -/
def Rect.area (r : Rect) : Area := ⟨r.pos, r.pos + r.dim.pos⟩

/-- Area::rect (gfx.rs). -/
def Area.rect (a : Area) : Rect := ⟨a.pos1, (a.pos2 - a.pos1).dim⟩

/-- Area::normalize (gfx.rs). -/
def Area.normalize (a : Area) : Area :=
  ⟨⟨min a.pos1.x a.pos2.x, min a.pos1.y a.pos2.y⟩,
   ⟨max a.pos1.x a.pos2.x, max a.pos1.y a.pos2.y⟩⟩

/-- Area::intersection (gfx.rs). -/
def Area.intersection (a other : Area) : Option Area :=
  let r : Area :=
    ⟨⟨max a.pos1.x other.pos1.x, max a.pos1.y other.pos1.y⟩,
     ⟨min a.pos2.x other.pos2.x, min a.pos2.y other.pos2.y⟩⟩
  if r.pos1.x < r.pos2.x ∧ r.pos1.y < r.pos2.y then some r else none

/-- A premultiplied-alpha pixel; field order b, g, r, a as in gfx.rs. -/
structure Color where
  b : Nat
  g : Nat
  r : Nat
  a : Nat
deriving DecidableEq

/-- The final "as u8" narrowing cast of a u32 value. -/
def u8cast (n : Nat) : Nat := n % 256

/-- Constructor function rgba (gfx.rs): premultiplies each channel by a/255. -/
def rgba (r g b a : Nat) : Color :=
  { r := u8cast (r * a / 255)
    g := u8cast (g * a / 255)
    b := u8cast (b * a / 255)
    a := a }

/-- Constructor function rgb (gfx.rs). -/
def rgb (r g b : Nat) : Color := rgba r g b 255

/-- Constructor function gray (gfx.rs). -/
def gray (g : Nat) : Color := rgb g g g

/-- Color::black_alpha (gfx.rs). -/
def Color.black_alpha (a : Nat) : Color := rgba 0 0 0 a

/-- Color::white_alpha (gfx.rs). -/
def Color.white_alpha (a : Nat) : Color := rgba 255 255 255 a

/-- Color::BLACK (gfx.rs). -/
def Color.BLACK : Color := rgb 0 0 0

/-- Color::WHITE (gfx.rs). -/
def Color.WHITE : Color := rgb 255 255 255

/-- Color::apply_alpha (gfx.rs). The three channel divisions divide by the
original alpha oa as a u32; when oa = 0 the Rust division is fatal
(u32 divide by zero), modelled by none. -/
def Color.apply_alpha (c : Color) (alpha : Nat) : Option Color :=
  let oa := c.a
  let na := c.a * alpha / 255
  if oa = 0 then none
  else some
    { r := u8cast (c.r * na / oa)
      g := u8cast (c.g * na / oa)
      b := u8cast (c.b * na / oa)
      a := u8cast na }

/-- The free channel-blend function premultiplied_over_ch (gfx.rs):
((fg * 255 + bg * (255 - fg_alpha)) / 255) as u8. -/
def premultiplied_over_ch (bg fg fg_alpha : Nat) : Nat :=
  u8cast ((fg * 255 + bg * (255 - fg_alpha)) / 255)

/-- Color::premultiplied_over (gfx.rs): the receiver is passed as the
bg argument of premultiplied_over_ch, the other color as fg. -/
def Color.premultiplied_over (self other : Color) : Color :=
  { r := premultiplied_over_ch self.r other.r other.a
    g := premultiplied_over_ch self.g other.g other.a
    b := premultiplied_over_ch self.b other.b other.a
    a := premultiplied_over_ch self.a other.a other.a }

/-- Color::additive_over (gfx.rs): per-channel u8 saturating addition. -/
def Color.additive_over (self other : Color) : Color :=
  { r := min (self.r + other.r) 255
    g := min (self.g + other.g) 255
    b := min (self.b + other.b) 255
    a := min (self.a + other.a) 255 }

/-- All four channels fit in a byte, as every reachable Rust Color does
(its fields are u8). -/
def Color.byteBounds (c : Color) : Prop :=
  c.r ≤ 255 ∧ c.g ≤ 255 ∧ c.b ≤ 255 ∧ c.a ≤ 255

/-- The premultiplied invariant of the spec: no color channel exceeds
the alpha channel. -/
def Color.premulInv (c : Color) : Prop :=
  c.r ≤ c.a ∧ c.g ≤ c.a ∧ c.b ≤ c.a

instance (c : Color) : Decidable c.byteBounds := by
  unfold Color.byteBounds; infer_instance

instance (c : Color) : Decidable c.premulInv := by
  unfold Color.premulInv; infer_instance

/-- The full position sequence produced by running AreaPosIter::next
(gfx.rs) to exhaustion from iterator state p over area a. next returns
None when p.y >= pos2.y; otherwise it emits p, steps x by one, and resets
x to pos1.x while stepping y when the new x reaches pos2.x. -/
def areaPosListFrom (a : Area) (p : Pos) : List Pos :=
  if a.pos2.y ≤ p.y then []
  else if a.pos2.x ≤ p.x + 1 then
    p :: areaPosListFrom a ⟨a.pos1.x, p.y + 1⟩
  else
    p :: areaPosListFrom a ⟨p.x + 1, p.y⟩
termination_by ((a.pos2.y - p.y).toNat, (a.pos2.x - p.x).toNat)
decreasing_by
  · apply Prod.Lex.left
    show (a.pos2.y - (p.y + 1)).toNat < (a.pos2.y - p.y).toNat
    omega
  · apply Prod.Lex.right
    show (a.pos2.x - (p.x + 1)).toNat < (a.pos2.x - p.x).toNat
    omega

/-- Area::pos_iter (gfx.rs) starts the iterator at pos1; this is the list
of every position it yields. -/
def Area.posList (a : Area) : List Pos := areaPosListFrom a a.pos1

/-- Spec-side description (sec 4.1): the row-major enumeration of the
half-open box of an Area, left-to-right within a row, top-to-bottom
across rows. -/
def rowMajor (a : Area) : List Pos :=
  (List.range (a.pos2.y - a.pos1.y).toNat).flatMap fun (j : Nat) =>
    (List.range (a.pos2.x - a.pos1.x).toNat).map fun (i : Nat) =>
      ⟨a.pos1.x + (i : Int), a.pos1.y + (j : Int)⟩

/-- gfx.rs struct Buffer: a dense row-major grid of Color and its extent. -/
structure Buffer where
  data : List Color
  dim : Dim
deriving DecidableEq

/-- Buffer::new (gfx.rs): dim.w * dim.h pixels of Color::BLACK (for
non-negative dims, the as-usize cast of the product is its toNat). -/
def Buffer.new (d : Dim) : Buffer :=
  ⟨List.replicate (d.w * d.h).toNat Color.BLACK, d⟩

/-- Buffer::area (gfx.rs): the half-open box from (0,0) to dim. -/
def Buffer.area (b : Buffer) : Area := ⟨⟨0, 0⟩, b.dim.pos⟩

/-- Reading the pixel at p of a row-major grid of width w, index
y*w + x. none models the fatal outcome of Rust slice indexing: an index
at or beyond the length, or a negative coordinate or width (whose
as-usize cast wraps to a huge value). -/
def readPx (data : List Color) (w : Int) (p : Pos) : Option Color :=
  if 0 ≤ p.x ∧ 0 ≤ p.y ∧ 0 ≤ w then data[(p.y * w + p.x).toNat]? else none

/-- Writing the pixel at p of a row-major grid of width w; none models
the same fatal outcomes as readPx. -/
def writePx (data : List Color) (w : Int) (p : Pos) (c : Color) :
    Option (List Color) :=
  if 0 ≤ p.x ∧ 0 ≤ p.y ∧ 0 ≤ w ∧ (p.y * w + p.x).toNat < data.length then
    some (data.set (p.y * w + p.x).toNat c)
  else none

/-- Buffer::area_apply (gfx.rs): clips other_area against other_bounds,
then clips a box of the clipped dims placed at p against this buffer's
bounds, and returns the clipped source area with the destination corner. -/
def Buffer.area_apply (self : Buffer) (other_bounds other_area : Area)
    (p : Pos) : Option (Area × Pos) := do
  let oa ← other_area.intersection other_bounds
  let da ← (Rect.area ⟨p, oa.rect.dim⟩).intersection self.area
  pure (oa, da.pos1)

/-- The (x, y) pairs visited by the nested for loops of apply_unchecked:
y in 0..h outside, x in 0..w inside. -/
def loopPairs (w h : Int) : List (Int × Int) :=
  (List.range h.toNat).flatMap fun (y : Nat) =>
    (List.range w.toNat).map fun (x : Nat) => ((x : Int), (y : Int))

/-- Buffer::apply_unchecked (gfx.rs): iterates the src_area extent,
reading src at src_area.pos1 + (x,y) and combining into the pixel at
dst_pos + (x,y) with op (receiving destination then source). none models
a fatal out-of-bounds index. -/
def Buffer.apply_unchecked (self src : Buffer) (src_area : Area)
    (dst_pos : Pos) (op : Color → Color → Color) : Option Buffer :=
  (loopPairs src_area.rect.dim.w src_area.rect.dim.h).foldlM
    (fun (buf : Buffer) (xy : Int × Int) => do
      let spos := src_area.pos1 + ⟨xy.1, xy.2⟩
      let dpos := dst_pos + ⟨xy.1, xy.2⟩
      let s ← readPx src.data src.dim.w spos
      let dcur ← readPx buf.data buf.dim.w dpos
      let nd ← writePx buf.data buf.dim.w dpos (op dcur s)
      pure { buf with data := nd }) self

/-- Buffer::apply (gfx.rs): clip via area_apply; on an empty clip return
the buffer untouched, otherwise run apply_unchecked on the clip result. -/
def Buffer.apply (self src : Buffer) (src_area : Area) (dst_pos : Pos)
    (op : Color → Color → Color) : Option Buffer :=
  match self.area_apply src.area src_area dst_pos with
  | none => some self
  | some (sa, dp) => self.apply_unchecked src sa dp op

/-- Buffer::premultiplied_over (gfx.rs): apply with the standard blend,
destination as receiver and source pixel as argument. -/
def Buffer.premultiplied_over (self src : Buffer) (src_area : Area)
    (dst_pos : Pos) : Option Buffer :=
  self.apply src src_area dst_pos fun dst s => dst.premultiplied_over s

/-- Truncation toward zero, the semantics of Rust's as-i32 cast applied
to a non-NaN in-range float. -/
def ratTrunc (q : ℚ) : Int := if 0 ≤ q then Int.floor q else Int.ceil q

/-- gfx.rs struct ProgressBar. The f32 progress field is modelled as an
exact rational; every concrete progress value appearing in the claims
(0.5) and every arithmetic step on it at the claimed inputs is exactly
representable in f32, so the rational model coincides with the f32 one
there. -/
structure ProgressBar where
  area : Area
  progress : ℚ
  fg : Color
  bg : Color

/-- The per-pixel body of ProgressBar::draw_normal: read the target
pixel, blend colorOf p over it (destination receiver, source argument),
write it back. none models a fatal out-of-bounds index. -/
def paintStep (colorOf : Pos → Color) (buf : Buffer) (p : Pos) :
    Option Buffer :=
  (readPx buf.data buf.dim.w p).bind fun tc =>
    (writePx buf.data buf.dim.w p (tc.premultiplied_over (colorOf p))).map
      fun nd => { buf with data := nd }

/-- ProgressBar::draw_normal (gfx.rs): clip the bar area against the
buffer, compute the split abscissa from the un-clipped area and progress,
then paint every clipped position with fg left of the split and bg from
the split on. -/
def ProgressBar.draw_normal (pb : ProgressBar) (buffer : Buffer) :
    Option Buffer :=
  match pb.area.intersection buffer.area with
  | none => some buffer
  | some actual =>
    let progress_x : Int :=
      ratTrunc ((pb.area.pos1.x : ℚ) +
        ((pb.area.pos2.x - pb.area.pos1.x : Int) : ℚ) * pb.progress)
    actual.posList.foldlM
      (paintStep fun p => if p.x < progress_x then pb.fg else pb.bg) buffer

/-- A glyph of the external baked_font asset; fields hold the values the
iterator code obtains after its as-i32 casts. -/
structure Glyph where
  pos : Int × Int
  size : Int × Int
  offset : Int × Int
deriving DecidableEq

/-- baked_font::GlyphResult: a lookup outcome for one or two codepoints. -/
inductive GlyphResult where
  | Unknown : Char → GlyphResult
  | Single : Glyph → Char → GlyphResult
  | Double : Glyph → Char → Char → GlyphResult
deriving DecidableEq

/-- gfx.rs struct GlyphCoord. -/
structure GlyphCoord where
  glyph_pos : Pos
  glyph_dim : Dim
  offset : Pos
  char1 : Char
  char2 : Option Char
deriving DecidableEq

/-- gfx.rs enum GlyphCoordResult. -/
inductive GlyphCoordResult where
  | Handled : GlyphCoord → GlyphCoordResult
  | Unhandled : Char → GlyphCoordResult
deriving DecidableEq

/-- StraightGlyphCoordIterator::next (gfx.rs) on one inner item: the
emitted item together with the updated cursor off. -/
def straightNext (off : Pos) : GlyphResult → GlyphCoordResult × Pos
  | .Unknown ch => (.Unhandled ch, off)
  | .Single g ch =>
      (.Handled ⟨⟨g.pos.1, g.pos.2⟩, ⟨g.size.1, g.size.2⟩,
        off + ⟨g.offset.1, g.offset.2⟩, ch, none⟩,
       ⟨off.x + g.size.1, off.y⟩)
  | .Double g ch1 ch2 =>
      (.Handled ⟨⟨g.pos.1, g.pos.2⟩, ⟨g.size.1, g.size.2⟩,
        off + ⟨g.offset.1, g.offset.2⟩, ch1, some ch2⟩,
       ⟨off.x + g.size.1, off.y⟩)

/-- The straight layout run over a whole input list from cursor off. -/
def straightList (off : Pos) : List GlyphResult → List GlyphCoordResult
  | [] => []
  | gr :: rest =>
    let s := straightNext off gr
    s.1 :: straightList s.2 rest

/-- LineWrapGlyphCoordIterator::next (gfx.rs) run over a whole input list
from inner cursor off: a handled glyph whose right edge passes width is
re-emitted at x = 0 one line lower with the inner cursor reset to the
glyph's own width and advanced by height; a newline input resets the
cursor without emitting; everything else passes through. -/
def lineWrapList (width height : Int) (off : Pos) :
    List GlyphResult → List GlyphCoordResult
  | [] => []
  | gr :: rest =>
    match straightNext off gr with
    | (.Handled gc, off') =>
      if width < gc.offset.x + gc.glyph_dim.w then
        .Handled { gc with offset := ⟨0, gc.offset.y + height⟩ } ::
          lineWrapList width height ⟨gc.glyph_dim.w, off'.y + height⟩ rest
      else
        .Handled gc :: lineWrapList width height off' rest
    | (.Unhandled ch, off') =>
      if ch = '\n' then lineWrapList width height ⟨0, off'.y + height⟩ rest
      else .Unhandled ch :: lineWrapList width height off' rest

end gfx

namespace gfx2

/-- The free channel-blend function premultiplied_over_ch of the gfx2.rs
revision: ((fg + bg * (255 - fg_alpha)) / 255) as u8 - unlike gfx.rs,
the fg term is not scaled by 255. -/
def premultiplied_over_ch (bg fg fg_alpha : Nat) : Nat :=
  gfx.u8cast ((fg + bg * (255 - fg_alpha)) / 255)

/-- Color::premultiplied_over of the gfx2.rs revision; its Color struct is a
byte-identical duplicate of the gfx.rs one, so the gfx Color type is reused. -/
def premultiplied_over (self other : gfx.Color) : gfx.Color :=
  { r := premultiplied_over_ch self.r other.r other.a
    g := premultiplied_over_ch self.g other.g other.a
    b := premultiplied_over_ch self.b other.b other.a
    a := premultiplied_over_ch self.a other.a other.a }

end gfx2

namespace gfx

/- Helper lemmas about the channel arithmetic. -/

theorem u8cast_of_le {n : Nat} (h : n ≤ 255) : u8cast n = n :=
  Nat.mod_eq_of_lt (Nat.lt_of_le_of_lt h (by norm_num))

theorem premultiplied_over_ch_le (bg fg fg_alpha : Nat) :
    premultiplied_over_ch bg fg fg_alpha ≤ 255 := by
  unfold premultiplied_over_ch u8cast
  exact Nat.le_of_lt_succ (Nat.mod_lt _ (by norm_num))

/-- When the fg channel respects its own alpha (the premultiplied
invariant of the blended-in color) and bg is a byte, the quotient inside
premultiplied_over_ch is at most 255. -/
theorem premultiplied_over_ch_quot_le {bg fg fg_alpha : Nat}
    (hbg : bg ≤ 255) (hfa : fg_alpha ≤ 255) (hfg : fg ≤ fg_alpha) :
    (fg * 255 + bg * (255 - fg_alpha)) / 255 ≤ 255 := by
  have h1 : fg * 255 + bg * (255 - fg_alpha) ≤ 255 * 255 := by
    have h2 : fg * 255 ≤ fg_alpha * 255 := Nat.mul_le_mul_right 255 hfg
    have h3 : bg * (255 - fg_alpha) ≤ 255 * (255 - fg_alpha) :=
      Nat.mul_le_mul_right _ hbg
    have h4 : fg_alpha * 255 + 255 * (255 - fg_alpha) = 255 * 255 := by
      have : 255 - fg_alpha + fg_alpha = 255 := Nat.sub_add_cancel hfa
      nlinarith [this]
    omega
  calc (fg * 255 + bg * (255 - fg_alpha)) / 255
      ≤ (255 * 255) / 255 := Nat.div_le_div_right h1
    _ = 255 := by norm_num

/-- Under the same conditions the u8 cast in premultiplied_over_ch is the
identity, exposing the raw truncating-division formula. -/
theorem premultiplied_over_ch_eq {bg fg fg_alpha : Nat}
    (hbg : bg ≤ 255) (hfa : fg_alpha ≤ 255) (hfg : fg ≤ fg_alpha) :
    premultiplied_over_ch bg fg fg_alpha =
      (fg * 255 + bg * (255 - fg_alpha)) / 255 :=
  u8cast_of_le (premultiplied_over_ch_quot_le hbg hfa hfg)

theorem rgba_channel_le {r a : Nat} (hr : r ≤ 255) (ha : a ≤ 255) :
    u8cast (r * a / 255) ≤ a := by
  have h1 : r * a / 255 ≤ 255 * a / 255 :=
    Nat.div_le_div_right (Nat.mul_le_mul_right a hr)
  have h2 : 255 * a / 255 = a := Nat.mul_div_cancel_left a (by norm_num)
  rw [u8cast_of_le (by omega)]
  omega

/-- Claim C2 (corrected), counterexample: at s = (r,g,b,a)=(10,10,10,50) and
d = (20,20,20,200), the red channel of s.premultiplied_over(d) is 22, not
the 26 demanded by the claimed formula (src_channel*255 +
dst_channel*(255-src.a))/255 with s in the source role. -/
theorem premultiplied_over_role_swap_cex :
    ¬ ((Color.premultiplied_over
          { r := 10, g := 10, b := 10, a := 50 }
          { r := 20, g := 20, b := 20, a := 200 }).r =
        (10 * 255 + 20 * (255 - 50)) / 255) := by decide

/-- Claim C2 (amended): s.premultiplied_over(d) puts the receiver s in the
destination (bg) role and the argument d in the source (fg) role: every
channel is ((d_ch*255 + s_ch*(255 - d.a)) / 255) as u8, the cast reducing
mod 256 (reachable only for inputs breaking the premultiplied invariant). -/
theorem premultiplied_over_formula (s d : Color) :
    s.premultiplied_over d =
      { r := u8cast ((d.r * 255 + s.r * (255 - d.a)) / 255)
        g := u8cast ((d.g * 255 + s.g * (255 - d.a)) / 255)
        b := u8cast ((d.b * 255 + s.b * (255 - d.a)) / 255)
        a := u8cast ((d.a * 255 + s.a * (255 - d.a)) / 255) } := rfl

/-- rgba on byte inputs keeps every channel under alpha. -/
theorem rgba_premulInv {r g b a : Nat} (hr : r ≤ 255) (hg : g ≤ 255)
    (hb : b ≤ 255) (ha : a ≤ 255) : (rgba r g b a).premulInv :=
  ⟨rgba_channel_le hr ha, rgba_channel_le hg ha, rgba_channel_le hb ha⟩

/-- The rescaled alpha of apply_alpha never exceeds the original alpha. -/
theorem apply_alpha_na_le {a alpha : Nat} (halpha : alpha ≤ 255) :
    a * alpha / 255 ≤ a := by
  have h1 : a * alpha / 255 ≤ a * 255 / 255 :=
    Nat.div_le_div_right (Nat.mul_le_mul_left a halpha)
  have h2 : a * 255 / 255 = a := Nat.mul_div_cancel a (by norm_num)
  omega

/-- apply_alpha preserves the premultiplied invariant whenever it
returns (byte-bounded invariant input, byte alpha). -/
theorem apply_alpha_premulInv {c : Color} {alpha : Nat} {c' : Color}
    (hinv : c.premulInv) (ha : c.a ≤ 255) (halpha : alpha ≤ 255)
    (heq : c.apply_alpha alpha = some c') : c'.premulInv := by
  unfold Color.apply_alpha at heq
  by_cases h0 : c.a = 0
  · simp [h0] at heq
  · simp only [h0, if_false, Option.some.injEq] at heq
    obtain ⟨hr, hg, hb⟩ := hinv
    have hna : c.a * alpha / 255 ≤ c.a := apply_alpha_na_le halpha
    have hch : ∀ ch, ch ≤ c.a →
        ch * (c.a * alpha / 255) / c.a ≤ c.a * alpha / 255 := by
      intro ch hch
      have h1 : ch * (c.a * alpha / 255) ≤ c.a * (c.a * alpha / 255) :=
        Nat.mul_le_mul_right _ hch
      have h2 : c.a * (c.a * alpha / 255) / c.a = c.a * alpha / 255 :=
        Nat.mul_div_cancel_left _ (Nat.pos_of_ne_zero h0)
      have h3 := Nat.div_le_div_right (c := c.a) h1
      omega
    have hcast : ∀ ch, ch ≤ c.a →
        u8cast (ch * (c.a * alpha / 255) / c.a) ≤ u8cast (c.a * alpha / 255) := by
      intro ch hle
      rw [u8cast_of_le (by have := hch ch hle; omega),
          u8cast_of_le (by omega)]
      exact hch ch hle
    subst heq
    exact ⟨hcast c.r hr, hcast c.g hg, hcast c.b hb⟩

/-- premultiplied_over preserves the premultiplied invariant on
byte-bounded invariant inputs. -/
theorem premultiplied_over_premulInv {c d : Color}
    (hc : c.premulInv) (hd : d.premulInv) (hca : c.a ≤ 255)
    (hda : d.a ≤ 255) : (c.premultiplied_over d).premulInv := by
  obtain ⟨hcr, hcg, hcb⟩ := hc
  obtain ⟨hdr, hdg, hdb⟩ := hd
  have hch : ∀ cch dch, cch ≤ c.a → dch ≤ d.a →
      premultiplied_over_ch cch dch d.a ≤ premultiplied_over_ch c.a d.a d.a := by
    intro cch dch hcch hdch
    rw [premultiplied_over_ch_eq (by omega) hda hdch,
        premultiplied_over_ch_eq hca hda le_rfl]
    apply Nat.div_le_div_right
    have h1 : dch * 255 ≤ d.a * 255 := Nat.mul_le_mul_right 255 hdch
    have h2 : cch * (255 - d.a) ≤ c.a * (255 - d.a) :=
      Nat.mul_le_mul_right _ hcch
    omega
  exact ⟨hch c.r d.r hcr hdr, hch c.g d.g hcg hdg, hch c.b d.b hcb hdb⟩

/-- additive_over preserves the premultiplied invariant. -/
theorem additive_over_premulInv {c d : Color}
    (hc : c.premulInv) (hd : d.premulInv) : (c.additive_over d).premulInv := by
  obtain ⟨hcr, hcg, hcb⟩ := hc
  obtain ⟨hdr, hdg, hdb⟩ := hd
  refine ⟨?_, ?_, ?_⟩ <;> · simp only [Color.additive_over]; omega

/-- Claim C3: every constructor (rgba, rgb, gray, black_alpha, white_alpha,
on byte inputs) yields a color satisfying the premultiplied invariant
r ≤ a ∧ g ≤ a ∧ b ≤ a, and the operators apply_alpha, premultiplied_over
and additive_over preserve it on byte-bounded invariant inputs. -/
theorem constructors_and_operators_keep_premulInv :
    (∀ r g b a, r ≤ 255 → g ≤ 255 → b ≤ 255 → a ≤ 255 →
      (rgba r g b a).premulInv) ∧
    (∀ r g b, r ≤ 255 → g ≤ 255 → b ≤ 255 → (rgb r g b).premulInv) ∧
    (∀ g, g ≤ 255 → (gray g).premulInv) ∧
    (∀ a, a ≤ 255 → (Color.black_alpha a).premulInv) ∧
    (∀ a, a ≤ 255 → (Color.white_alpha a).premulInv) ∧
    (∀ (c : Color) (alpha : Nat) (c' : Color),
      c.premulInv → c.a ≤ 255 → alpha ≤ 255 →
      c.apply_alpha alpha = some c' → c'.premulInv) ∧
    (∀ c d : Color, c.premulInv → d.premulInv → c.a ≤ 255 → d.a ≤ 255 →
      (c.premultiplied_over d).premulInv) ∧
    (∀ c d : Color, c.premulInv → d.premulInv →
      (c.additive_over d).premulInv) := by
  refine ⟨fun r g b a hr hg hb ha => rgba_premulInv hr hg hb ha,
    fun r g b hr hg hb => rgba_premulInv hr hg hb le_rfl,
    fun g hg => rgba_premulInv hg hg hg le_rfl,
    fun a ha => rgba_premulInv (by norm_num) (by norm_num) (by norm_num) ha,
    fun a ha => rgba_premulInv le_rfl le_rfl le_rfl ha,
    fun c alpha c' hinv ha halpha heq =>
      apply_alpha_premulInv hinv ha halpha heq,
    fun c d hc hd hca hda => premultiplied_over_premulInv hc hd hca hda,
    fun c d hc hd => additive_over_premulInv hc hd⟩

/-- Witness for claim C3 at concrete inputs. -/
theorem constructors_and_operators_keep_premulInv_witness :
    (rgba 100 150 200 128).premulInv ∧
    Color.premulInv { r := 3, g := 7, b := 11, a := 100 } ∧
    ((rgba 10 20 30 200).premultiplied_over (rgba 50 60 70 100)).premulInv ∧
    ((rgba 10 20 30 200).additive_over (rgba 50 60 70 100)).premulInv :=
  ⟨constructors_and_operators_keep_premulInv.1 100 150 200 128
      (by norm_num) (by norm_num) (by norm_num) (by norm_num),
   constructors_and_operators_keep_premulInv.2.2.2.2.2.1
      (rgba 10 20 30 200) 128 { r := 3, g := 7, b := 11, a := 100 }
      (by decide) (by decide) (by decide) (by decide),
   constructors_and_operators_keep_premulInv.2.2.2.2.2.2.1
      (rgba 10 20 30 200) (rgba 50 60 70 100)
      (by decide) (by decide) (by decide) (by decide),
   constructors_and_operators_keep_premulInv.2.2.2.2.2.2.2
      (rgba 10 20 30 200) (rgba 50 60 70 100) (by decide) (by decide)⟩

/-- Claim C4 (corrected), counterexample: at a = 0 the Rust code divides by
zero (modelled none), and at c = (2,2,2,3), alpha = 128 the channels are not
channel*alpha/255 (the code computes 2*(3*128/255)/3 = 0, not 2*128/255 = 1). -/
theorem apply_alpha_cex :
    Color.apply_alpha { r := 0, g := 0, b := 0, a := 0 } 128 = none ∧
    Color.apply_alpha { r := 2, g := 2, b := 2, a := 3 } 128 ≠
      some { r := 2 * 128 / 255, g := 2 * 128 / 255, b := 2 * 128 / 255,
             a := 3 * 128 / 255 } := by decide

/-- Claim C4 (amended): for colors with positive alpha, apply_alpha is
defined; it rescales alpha to a*alpha/255 and every channel to
ch * (a*alpha/255) / a (truncating at each division, which can differ from
ch*alpha/255), and preserves the premultiplied invariant. -/
theorem apply_alpha_spec (c : Color) (alpha : Nat) (h0 : 0 < c.a)
    (hb : c.byteBounds) (halpha : alpha ≤ 255) :
    c.apply_alpha alpha = some
      { r := c.r * (c.a * alpha / 255) / c.a
        g := c.g * (c.a * alpha / 255) / c.a
        b := c.b * (c.a * alpha / 255) / c.a
        a := c.a * alpha / 255 } ∧
    (c.premulInv → Color.premulInv
      { r := c.r * (c.a * alpha / 255) / c.a
        g := c.g * (c.a * alpha / 255) / c.a
        b := c.b * (c.a * alpha / 255) / c.a
        a := c.a * alpha / 255 }) := by
  obtain ⟨hbr, hbg, hbb, hba⟩ := hb
  have hne : c.a ≠ 0 := Nat.pos_iff_ne_zero.mp h0
  have hna : c.a * alpha / 255 ≤ c.a := apply_alpha_na_le halpha
  have hch : ∀ ch, ch ≤ 255 →
      ch * (c.a * alpha / 255) / c.a ≤ 255 := by
    intro ch hle
    have h1 : ch * (c.a * alpha / 255) ≤ ch * c.a :=
      Nat.mul_le_mul_left ch hna
    have h2 : ch * c.a / c.a = ch := Nat.mul_div_cancel ch h0
    have h3 := Nat.div_le_div_right (c := c.a) h1
    omega
  have heq : c.apply_alpha alpha = some
      { r := c.r * (c.a * alpha / 255) / c.a
        g := c.g * (c.a * alpha / 255) / c.a
        b := c.b * (c.a * alpha / 255) / c.a
        a := c.a * alpha / 255 } := by
    unfold Color.apply_alpha
    rw [if_neg hne]
    congr 1
    congr 1 <;> apply u8cast_of_le
    · exact hch c.b hbb
    · exact hch c.g hbg
    · exact hch c.r hbr
    · omega
  exact ⟨heq, fun hinv => apply_alpha_premulInv hinv hba halpha heq⟩

/-- Witness for claim C4 at c = (2,2,2,3), alpha = 128. -/
theorem apply_alpha_spec_witness :
    Color.apply_alpha { r := 2, g := 2, b := 2, a := 3 } 128 = some
      { r := 2 * (3 * 128 / 255) / 3
        g := 2 * (3 * 128 / 255) / 3
        b := 2 * (3 * 128 / 255) / 3
        a := 3 * 128 / 255 } ∧
    (Color.premulInv { r := 2, g := 2, b := 2, a := 3 } → Color.premulInv
      { r := 2 * (3 * 128 / 255) / 3
        g := 2 * (3 * 128 / 255) / 3
        b := 2 * (3 * 128 / 255) / 3
        a := 3 * 128 / 255 }) :=
  apply_alpha_spec { r := 2, g := 2, b := 2, a := 3 } 128
    (by decide) (by decide) (by decide)

/-- Blending a zero fg channel with zero fg alpha over a byte bg channel
returns the bg channel. -/
theorem premultiplied_over_ch_zero_fg {x : Nat} (hx : x ≤ 255) :
    premultiplied_over_ch x 0 0 = x := by
  show u8cast ((0 * 255 + x * (255 - 0)) / 255) = x
  have h1 : (0 * 255 + x * (255 - 0)) / 255 = x := by
    rw [Nat.zero_mul, Nat.zero_add, Nat.sub_zero, Nat.mul_div_cancel x]
    norm_num
  rw [h1]
  exact u8cast_of_le hx

/-- Blending a byte fg channel over a zero bg channel returns the fg
channel, whatever the fg alpha. -/
theorem premultiplied_over_ch_zero_bg {x fa : Nat} (hx : x ≤ 255) :
    premultiplied_over_ch 0 x fa = x := by
  show u8cast ((x * 255 + 0 * (255 - fa)) / 255) = x
  have h1 : (x * 255 + 0 * (255 - fa)) / 255 = x := by
    rw [Nat.zero_mul, Nat.add_zero, Nat.mul_div_cancel x]
    norm_num
  rw [h1]
  exact u8cast_of_le hx

/-- Claim C8: a fully transparent premultiplied source s (a = 0, so all
channels 0) blended with any byte-bounded destination d leaves d unchanged,
in both call directions (s as receiver and s as argument). -/
theorem transparent_over_identity (s d : Color) (ha : s.a = 0)
    (hs : s.premulInv) (hd : d.byteBounds) :
    s.premultiplied_over d = d ∧ d.premultiplied_over s = d := by
  obtain ⟨hr, hg, hb⟩ := hs
  obtain ⟨hdr, hdg, hdb, hda⟩ := hd
  have hr0 : s.r = 0 := by omega
  have hg0 : s.g = 0 := by omega
  have hb0 : s.b = 0 := by omega
  constructor
  · rw [show s.premultiplied_over d =
        { r := premultiplied_over_ch s.r d.r d.a
          g := premultiplied_over_ch s.g d.g d.a
          b := premultiplied_over_ch s.b d.b d.a
          a := premultiplied_over_ch s.a d.a d.a } from rfl,
      hr0, hg0, hb0, ha]
    cases d with
    | mk db dg dr da =>
      simp only [Color.mk.injEq]
      exact ⟨premultiplied_over_ch_zero_bg hdb,
        premultiplied_over_ch_zero_bg hdg,
        premultiplied_over_ch_zero_bg hdr,
        premultiplied_over_ch_zero_bg hda⟩
  · rw [show d.premultiplied_over s =
        { r := premultiplied_over_ch d.r s.r s.a
          g := premultiplied_over_ch d.g s.g s.a
          b := premultiplied_over_ch d.b s.b s.a
          a := premultiplied_over_ch d.a s.a s.a } from rfl,
      hr0, hg0, hb0, ha]
    cases d with
    | mk db dg dr da =>
      simp only [Color.mk.injEq]
      exact ⟨premultiplied_over_ch_zero_fg hdb,
        premultiplied_over_ch_zero_fg hdg,
        premultiplied_over_ch_zero_fg hdr,
        premultiplied_over_ch_zero_fg hda⟩

/-- Witness for claim C8 at s = (0,0,0,0), d = (23,45,67,200). -/
theorem transparent_over_identity_witness :
    Color.premultiplied_over { r := 0, g := 0, b := 0, a := 0 }
        { r := 23, g := 45, b := 67, a := 200 } =
      { r := 23, g := 45, b := 67, a := 200 } ∧
    Color.premultiplied_over { r := 23, g := 45, b := 67, a := 200 }
        { r := 0, g := 0, b := 0, a := 0 } =
      { r := 23, g := 45, b := 67, a := 200 } :=
  transparent_over_identity { r := 0, g := 0, b := 0, a := 0 }
    { r := 23, g := 45, b := 67, a := 200 }
    (by decide) (by decide) (by decide)

/-- Claim C7 (corrected), counterexample: the un-normalized area
a = ((1,0),(0,1)) has a non-degenerate normalized form ((0,0),(1,1)) of
positive width and height, yet a.intersection(a) is None, not
Some(a.normalize()). -/
theorem intersection_self_cex :
    (Area.normalize ⟨⟨1, 0⟩, ⟨0, 1⟩⟩ = ⟨⟨0, 0⟩, ⟨1, 1⟩⟩) ∧
    Area.intersection ⟨⟨1, 0⟩, ⟨0, 1⟩⟩ ⟨⟨1, 0⟩, ⟨0, 1⟩⟩ = none := by decide

/-- Claim C7 (amended): for areas that are already normalized and
non-degenerate (pos1 strictly below pos2 in both coordinates),
a.intersection(a) = some (a.normalize()) (= some a). -/
theorem intersection_self (a : Area) (hx : a.pos1.x < a.pos2.x)
    (hy : a.pos1.y < a.pos2.y) :
    a.intersection a = some a.normalize := by
  unfold Area.intersection Area.normalize
  simp only [max_self, min_self]
  rw [if_pos ⟨hx, hy⟩, min_eq_left (le_of_lt hx), min_eq_left (le_of_lt hy),
    max_eq_right (le_of_lt hx), max_eq_right (le_of_lt hy)]

/-- Witness for claim C7 at a = ((2,3),(7,9)). -/
theorem intersection_self_witness :
    Area.intersection ⟨⟨2, 3⟩, ⟨7, 9⟩⟩ ⟨⟨2, 3⟩, ⟨7, 9⟩⟩ =
      some (Area.normalize ⟨⟨2, 3⟩, ⟨7, 9⟩⟩) :=
  intersection_self ⟨⟨2, 3⟩, ⟨7, 9⟩⟩ (by decide) (by decide)

/-- Claim C10: the gfx.rs and gfx2.rs revisions of the blend operator
disagree: blending opaque white into opaque black gives white under gfx.rs
but (1,1,1,1) under gfx2.rs, whose channel function dropped the *255 on the
fg term of the spec formula. -/
theorem gfx2_blend_divergence :
    Color.premultiplied_over Color.BLACK Color.WHITE = Color.WHITE ∧
    gfx2.premultiplied_over Color.BLACK Color.WHITE =
      { r := 1, g := 1, b := 1, a := 1 } ∧
    gfx2.premultiplied_over Color.BLACK Color.WHITE ≠
      Color.premultiplied_over Color.BLACK Color.WHITE := by decide

/- Unfolding lemmas for areaPosListFrom, one per branch of next. -/

theorem areaPosListFrom_step_stop (a : Area) (p : Pos)
    (h : a.pos2.y ≤ p.y) : areaPosListFrom a p = [] := by
  rw [areaPosListFrom.eq_def, if_pos h]

theorem areaPosListFrom_step_wrap (a : Area) (p : Pos)
    (h1 : ¬ a.pos2.y ≤ p.y) (h2 : a.pos2.x ≤ p.x + 1) :
    areaPosListFrom a p = p :: areaPosListFrom a ⟨a.pos1.x, p.y + 1⟩ := by
  rw [areaPosListFrom.eq_def, if_neg h1, if_pos h2]

theorem areaPosListFrom_step_next (a : Area) (p : Pos)
    (h1 : ¬ a.pos2.y ≤ p.y) (h2 : ¬ a.pos2.x ≤ p.x + 1) :
    areaPosListFrom a p = p :: areaPosListFrom a ⟨p.x + 1, p.y⟩ := by
  rw [areaPosListFrom.eq_def, if_neg h1, if_neg h2]

/-- Within one row the iterator walks x from its current value to the
right edge, then moves to the start of the following row. -/
theorem areaPosListFrom_row (a : Area) : ∀ (n : Nat) (x y : Int),
    (a.pos2.x - x).toNat = n → y < a.pos2.y → x < a.pos2.x →
    areaPosListFrom a ⟨x, y⟩ =
      ((List.range n).map fun (i : Nat) => (⟨x + (i : Int), y⟩ : Pos)) ++
        areaPosListFrom a ⟨a.pos1.x, y + 1⟩ := by
  intro n
  induction n with
  | zero => intro x y hn hy hx; omega
  | succ n ih =>
    intro x y hn hy hx
    by_cases hone : a.pos2.x ≤ x + 1
    · have hn0 : n = 0 := by omega
      subst hn0
      rw [areaPosListFrom_step_wrap a ⟨x, y⟩ (by exact not_le.mpr hy) hone,
        show List.range 1 = [0] from rfl]
      simp
    · rw [areaPosListFrom_step_next a ⟨x, y⟩ (by exact not_le.mpr hy) hone,
        ih (x + 1) y (by omega) hy (by omega),
        List.range_succ_eq_map, List.map_cons, List.map_map]
      have hfun : (List.range n).map
            ((fun (i : Nat) => (⟨x + (i : Int), y⟩ : Pos)) ∘ Nat.succ) =
          (List.range n).map
            fun (i : Nat) => (⟨x + 1 + (i : Int), y⟩ : Pos) := by
        congr 1
        funext i
        simp only [Function.comp_apply]
        congr 1
        omega
      rw [hfun]
      simp

/-- From a row start, the iterator enumerates the remaining rows in
row-major order (needs a nonempty x-range). -/
theorem areaPosListFrom_rows (a : Area) (hx : a.pos1.x < a.pos2.x) :
    ∀ (m : Nat) (y : Int), (a.pos2.y - y).toNat = m →
    areaPosListFrom a ⟨a.pos1.x, y⟩ =
      (List.range m).flatMap fun (j : Nat) =>
        (List.range (a.pos2.x - a.pos1.x).toNat).map fun (i : Nat) =>
          (⟨a.pos1.x + (i : Int), y + (j : Int)⟩ : Pos) := by
  intro m
  induction m with
  | zero =>
    intro y hm
    rw [areaPosListFrom_step_stop a ⟨a.pos1.x, y⟩ (by show a.pos2.y ≤ y; omega)]
    simp
  | succ m ih =>
    intro y hm
    have hy : y < a.pos2.y := by
      have := hm
      omega
    rw [areaPosListFrom_row a (a.pos2.x - a.pos1.x).toNat a.pos1.x y rfl hy hx,
      ih (y + 1) (by omega), List.range_succ_eq_map, List.flatMap_cons,
      List.flatMap_map]
    congr 1
    · congr 1
      funext i
      congr 1
      omega
    · congr 1
      funext j
      congr 1
      funext i
      congr 1
      omega

/-- For a positive x-range, the iterator's full output is the row-major
enumeration of the box. -/
theorem posList_eq_rowMajor (a : Area) (hx : a.pos1.x < a.pos2.x) :
    a.posList = rowMajor a := by
  show areaPosListFrom a a.pos1 = rowMajor a
  unfold rowMajor
  exact areaPosListFrom_rows a hx (a.pos2.y - a.pos1.y).toNat a.pos1.y rfl

/-- Membership in the row-major enumeration is exactly membership in the
half-open box. -/
theorem mem_rowMajor {a : Area} {p : Pos} :
    p ∈ rowMajor a ↔
      (a.pos1.x ≤ p.x ∧ p.x < a.pos2.x ∧ a.pos1.y ≤ p.y ∧ p.y < a.pos2.y) := by
  unfold rowMajor
  simp only [List.mem_flatMap, List.mem_range, List.mem_map]
  constructor
  · rintro ⟨j, hj, i, hi, rfl⟩
    refine ⟨?_, ?_, ?_, ?_⟩ <;> dsimp only <;> omega
  · rintro ⟨h1, h2, h3, h4⟩
    refine ⟨(p.y - a.pos1.y).toNat, by omega,
      (p.x - a.pos1.x).toNat, by omega, ?_⟩
    cases p with
    | mk px py =>
      simp only [Pos.mk.injEq]
      constructor <;> dsimp only at h1 h2 h3 h4 <;> omega

/-- Claim C5 (corrected), counterexample: the Area ((0,0),(0,1)) is
normalized and its half-open box is empty (zero width), yet pos_iter
yields the out-of-box position (0,0) instead of nothing. -/
theorem pos_iter_empty_width_cex :
    Area.posList ⟨⟨0, 0⟩, ⟨0, 1⟩⟩ = [⟨0, 0⟩] ∧
    rowMajor ⟨⟨0, 0⟩, ⟨0, 1⟩⟩ = [] ∧
    Area.normalize ⟨⟨0, 0⟩, ⟨0, 1⟩⟩ = ⟨⟨0, 0⟩, ⟨0, 1⟩⟩ := by
  refine ⟨?_, by decide, by decide⟩
  show areaPosListFrom ⟨⟨0, 0⟩, ⟨0, 1⟩⟩ ⟨0, 0⟩ = [⟨0, 0⟩]
  rw [areaPosListFrom_step_wrap _ _ (by decide) (by decide),
    areaPosListFrom_step_stop _ _ (by decide)]

/-- Claim C5 (amended): for every Area with pos1.x < pos2.x, pos_iter
yields exactly the integer positions of the half-open box [pos1, pos2) in
row-major order (left-to-right within a row, top-to-bottom across rows),
and yields nothing when additionally pos1.y >= pos2.y, i.e. when the box
of such an area is empty. -/
theorem pos_iter_rowMajor (a : Area) (hx : a.pos1.x < a.pos2.x) :
    a.posList = rowMajor a ∧
    (∀ p : Pos, p ∈ a.posList ↔
      (a.pos1.x ≤ p.x ∧ p.x < a.pos2.x ∧ a.pos1.y ≤ p.y ∧ p.y < a.pos2.y)) :=
  ⟨posList_eq_rowMajor a hx,
   fun p => by rw [posList_eq_rowMajor a hx]; exact mem_rowMajor⟩

/-- Witness for claim C5 at the Area ((0,0),(2,2)). -/
theorem pos_iter_rowMajor_witness :
    Area.posList ⟨⟨0, 0⟩, ⟨2, 2⟩⟩ = rowMajor ⟨⟨0, 0⟩, ⟨2, 2⟩⟩ ∧
    (∀ p : Pos, p ∈ Area.posList ⟨⟨0, 0⟩, ⟨2, 2⟩⟩ ↔
      ((0 : Int) ≤ p.x ∧ p.x < 2 ∧ (0 : Int) ≤ p.y ∧ p.y < 2)) :=
  pos_iter_rowMajor ⟨⟨0, 0⟩, ⟨2, 2⟩⟩ (by decide)

/-- Claim C6: in the line-wrap layout, a glyph whose emitted right edge
(cursor plus render offset plus glyph width) would pass the line width is
emitted at horizontal position 0 exactly one line (height) lower with the
same glyph data, and the inner cursor is reset to that glyph's width and
advanced vertically by height; a glyph that fits is emitted exactly as
the straight layout emits it, with the cursor advanced by its width.
Stated for single- and double-codepoint glyphs. -/
theorem line_wrap_step (width height : Int) (off : Pos) (g : Glyph)
    (ch1 ch2 : Char) (rest : List GlyphResult) :
    (lineWrapList width height off (GlyphResult.Single g ch1 :: rest) =
      (if width < (off.x + g.offset.1) + g.size.1 then
        GlyphCoordResult.Handled ⟨⟨g.pos.1, g.pos.2⟩, ⟨g.size.1, g.size.2⟩,
            ⟨0, (off.y + g.offset.2) + height⟩, ch1, none⟩ ::
          lineWrapList width height ⟨g.size.1, off.y + height⟩ rest
      else
        GlyphCoordResult.Handled ⟨⟨g.pos.1, g.pos.2⟩, ⟨g.size.1, g.size.2⟩,
            ⟨off.x + g.offset.1, off.y + g.offset.2⟩, ch1, none⟩ ::
          lineWrapList width height ⟨off.x + g.size.1, off.y⟩ rest)) ∧
    (lineWrapList width height off (GlyphResult.Double g ch1 ch2 :: rest) =
      (if width < (off.x + g.offset.1) + g.size.1 then
        GlyphCoordResult.Handled ⟨⟨g.pos.1, g.pos.2⟩, ⟨g.size.1, g.size.2⟩,
            ⟨0, (off.y + g.offset.2) + height⟩, ch1, some ch2⟩ ::
          lineWrapList width height ⟨g.size.1, off.y + height⟩ rest
      else
        GlyphCoordResult.Handled ⟨⟨g.pos.1, g.pos.2⟩, ⟨g.size.1, g.size.2⟩,
            ⟨off.x + g.offset.1, off.y + g.offset.2⟩, ch1, some ch2⟩ ::
          lineWrapList width height ⟨off.x + g.size.1, off.y⟩ rest)) :=
  ⟨rfl, rfl⟩

/-- One paint step on an in-bounds position: read-modify-write of the
indexed pixel. -/
theorem paintStep_eq {colorOf : Pos → Color} {buf : Buffer} {p : Pos}
    (hx : 0 ≤ p.x) (hy : 0 ≤ p.y) (hw : 0 ≤ buf.dim.w)
    (hidx : (p.y * buf.dim.w + p.x).toNat < buf.data.length) :
    paintStep colorOf buf p = some
      ⟨buf.data.set (p.y * buf.dim.w + p.x).toNat
        ((buf.data.get ⟨(p.y * buf.dim.w + p.x).toNat, hidx⟩).premultiplied_over
          (colorOf p)),
       buf.dim⟩ := by
  unfold paintStep readPx writePx
  rw [if_pos ⟨hx, hy, hw⟩, List.getElem?_eq_getElem hidx, Option.some_bind,
    if_pos ⟨hx, hy, hw, hidx⟩]
  rfl

/-- Folding paint steps over a duplicate-free in-bounds position list
succeeds and updates exactly the listed pixels, leaving the rest. -/
theorem paintFold_spec (colorOf : Pos → Color) :
    ∀ (ps : List Pos) (buf : Buffer),
    0 ≤ buf.dim.w →
    (∀ p ∈ ps, 0 ≤ p.x ∧ 0 ≤ p.y ∧
      (p.y * buf.dim.w + p.x).toNat < buf.data.length) →
    (ps.map fun p => (p.y * buf.dim.w + p.x).toNat).Nodup →
    ∃ res : List Color,
      ps.foldlM (paintStep colorOf) buf = some ⟨res, buf.dim⟩ ∧
      res.length = buf.data.length ∧
      (∀ p ∈ ps, res[(p.y * buf.dim.w + p.x).toNat]? =
        (buf.data[(p.y * buf.dim.w + p.x).toNat]?).map
          fun c => c.premultiplied_over (colorOf p)) ∧
      (∀ i : Nat, i ∉ ps.map (fun p => (p.y * buf.dim.w + p.x).toNat) →
        res[i]? = buf.data[i]?) := by
  intro ps
  induction ps with
  | nil =>
    intro buf _ _ _
    exact ⟨buf.data, rfl, rfl, fun p hp => absurd hp (List.not_mem_nil p),
      fun i _ => rfl⟩
  | cons p rest ih =>
    intro buf hw hin hnd
    obtain ⟨hx, hy, hidx⟩ := hin p (List.mem_cons_self p rest)
    rw [List.map_cons, List.nodup_cons] at hnd
    obtain ⟨hpnotin, hnd'⟩ := hnd
    rw [List.foldlM_cons, paintStep_eq hx hy hw hidx]
    set idxp := (p.y * buf.dim.w + p.x).toNat with hidxp
    set v := ((buf.data.get ⟨idxp, hidx⟩).premultiplied_over (colorOf p))
      with hv
    have hbind : (some (⟨buf.data.set idxp v, buf.dim⟩ : Buffer) >>=
        fun b => rest.foldlM (paintStep colorOf) b) =
        rest.foldlM (paintStep colorOf) ⟨buf.data.set idxp v, buf.dim⟩ := rfl
    rw [hbind]
    obtain ⟨res, hfold, hlen, hmem, hout⟩ :=
      ih ⟨buf.data.set idxp v, buf.dim⟩ hw
        (by
          intro q hq
          obtain ⟨h1, h2, h3⟩ := hin q (List.mem_cons_of_mem p hq)
          exact ⟨h1, h2, by simpa using h3⟩)
        (by simpa using hnd')
    refine ⟨res, hfold, by simpa using hlen, ?_, ?_⟩
    · intro q hq
      rcases List.mem_cons.mp hq with hq | hq
      · subst hq
        have h1 : res[idxp]? = (buf.data.set idxp v)[idxp]? :=
          hout idxp (by simpa using hpnotin)
        rw [h1, List.getElem?_set_eq_of_lt v hidx,
          List.getElem?_eq_getElem hidx]
        rfl
      · have hqm : ((q.y * buf.dim.w + q.x).toNat) ∈
            rest.map fun r => (r.y * buf.dim.w + r.x).toNat :=
          List.mem_map_of_mem _ hq
        have hne : idxp ≠ (q.y * buf.dim.w + q.x).toNat := by
          intro hcontra
          exact hpnotin (hcontra ▸ hqm)
        rw [hmem q hq, List.getElem?_set_ne hne]
    · intro i hi
      have hi1 : i ≠ idxp := by
        intro hcontra
        exact hi (by rw [hcontra]; exact List.mem_cons_self idxp _)
      have hi2 : i ∉ rest.map fun r => (r.y * buf.dim.w + r.x).toNat := by
        intro hcontra
        exact hi (List.mem_cons_of_mem _ hcontra)
      rw [hout i hi2, List.getElem?_set_ne (Ne.symm hi1)]

/-- Row-major flat indices are injective on a grid of width W for
coordinates within [0, W) x [0, inf). -/
theorem grid_idx_inj {W x1 y1 x2 y2 : Int} (hW : 0 ≤ W)
    (ha : 0 ≤ x1) (hb : x1 < W) (hc : 0 ≤ y1)
    (hd : 0 ≤ x2) (he : x2 < W) (hf : 0 ≤ y2)
    (h : (y1 * W + x1).toNat = (y2 * W + x2).toNat) : x1 = x2 ∧ y1 = y2 := by
  have h1 : 0 ≤ y1 * W + x1 := add_nonneg (mul_nonneg hc hW) ha
  have h2 : 0 ≤ y2 * W + x2 := add_nonneg (mul_nonneg hf hW) hd
  have heq : y1 * W + x1 = y2 * W + x2 := by
    have hcast := congrArg (fun n : Nat => (n : Int)) h
    simpa [Int.toNat_of_nonneg h1, Int.toNat_of_nonneg h2] using hcast
  have hyy : y1 = y2 := by
    by_contra hne
    rcases lt_or_gt_of_ne hne with hlt | hlt
    · have hstep : (y1 + 1) * W ≤ y2 * W :=
        mul_le_mul_of_nonneg_right (by omega) hW
      rw [add_mul, one_mul] at hstep
      omega
    · have hstep : (y2 + 1) * W ≤ y1 * W :=
        mul_le_mul_of_nonneg_right (by omega) hW
      rw [add_mul, one_mul] at hstep
      omega
  refine ⟨?_, hyy⟩
  rw [hyy] at heq
  omega

/-- The row-major enumeration of a box has no duplicate positions. -/
theorem rowMajor_nodup (a : Area) : (rowMajor a).Nodup := by
  unfold rowMajor
  rw [List.nodup_flatMap]
  constructor
  · intro j _
    refine (List.nodup_range _).map ?_
    intro i1 i2 hi
    simp only [Pos.mk.injEq] at hi
    omega
  · refine List.Pairwise.imp ?_ (List.pairwise_lt_range _)
    intro j1 j2 hlt p hp1 hp2
    simp only [List.mem_map, List.mem_range] at hp1 hp2
    obtain ⟨i1, _, h1⟩ := hp1
    obtain ⟨i2, _, h2⟩ := hp2
    rw [← h1] at h2
    simp only [Pos.mk.injEq] at h2
    omega

/-- In a grid at least as wide as the box and with the box at
non-negative coordinates, the flat indices of the box positions are
pairwise distinct. -/
theorem rowMajor_idx_nodup (a : Area) (W : Int) (hW : 0 ≤ W)
    (hx1 : 0 ≤ a.pos1.x) (hx2 : a.pos2.x ≤ W) (hy1 : 0 ≤ a.pos1.y) :
    ((rowMajor a).map fun p => (p.y * W + p.x).toNat).Nodup := by
  refine List.Nodup.map_on ?_ (rowMajor_nodup a)
  intro p hp q hq heq
  rw [mem_rowMajor] at hp hq
  obtain ⟨hp1, hp2, hp3, hp4⟩ := hp
  obtain ⟨hq1, hq2, hq3, hq4⟩ := hq
  obtain ⟨hxx, hyy⟩ := grid_idx_inj hW
    (le_trans hx1 hp1) (lt_of_lt_of_le hp2 hx2) (le_trans hy1 hp3)
    (le_trans hx1 hq1) (lt_of_lt_of_le hq2 hx2) (le_trans hy1 hq3) heq
  cases p
  cases q
  simp only [Pos.mk.injEq]
  exact ⟨hxx, hyy⟩

/-- Claim C9: a ProgressBar over ((0,0),(100,10)) with progress 1/2 drawn
into any buffer containing that area blends fg over the destination pixel
at every (x,y) with x in [0,50) and y in [0,10), blends bg over the
destination at every (x,y) with x in [50,100) and y in [0,10), and leaves
every other pixel unchanged. (The f32 split computation 0 + 100*0.5 = 50
is exact, so the rational model used here coincides with it.) -/
theorem progress_bar_half_split (W H : Int) (data : List Color)
    (fg bg : Color) (hW : 100 ≤ W) (hH : 10 ≤ H)
    (hlen : data.length = (W * H).toNat) :
    ∃ res : List Color,
      ProgressBar.draw_normal ⟨⟨⟨0, 0⟩, ⟨100, 10⟩⟩, 1 / 2, fg, bg⟩
          ⟨data, ⟨W, H⟩⟩ = some ⟨res, ⟨W, H⟩⟩ ∧
      res.length = data.length ∧
      (∀ x y : Int, 0 ≤ x → x < W → 0 ≤ y → y < H →
        res[(y * W + x).toNat]? =
          if x < 50 ∧ y < 10 then
            (data[(y * W + x).toNat]?).map fun c => c.premultiplied_over fg
          else if x < 100 ∧ y < 10 then
            (data[(y * W + x).toNat]?).map fun c => c.premultiplied_over bg
          else data[(y * W + x).toNat]?) := by
  have hW0 : (0 : Int) ≤ W := by omega
  have hH0 : (0 : Int) ≤ H := by omega
  have hboxmem : ∀ p : Pos, p ∈ rowMajor ⟨⟨0, 0⟩, ⟨100, 10⟩⟩ ↔
      (0 ≤ p.x ∧ p.x < 100 ∧ 0 ≤ p.y ∧ p.y < 10) :=
    fun p => Iff.trans mem_rowMajor Iff.rfl
  have hidxlt : ∀ x y : Int, 0 ≤ x → x < W → 0 ≤ y → y < H →
      (y * W + x).toNat < data.length := by
    intro x y hx0 hxW hy0 hyH
    rw [hlen]
    have hz : 0 ≤ y * W + x := add_nonneg (mul_nonneg hy0 hW0) hx0
    rw [Int.toNat_lt hz, Int.toNat_of_nonneg (mul_nonneg hW0 hH0)]
    have hstep : (y + 1) * W ≤ H * W := mul_le_mul_of_nonneg_right (by omega) hW0
    rw [add_mul, one_mul, mul_comm H W] at hstep
    omega
  obtain ⟨res, hfold, hlen', hmem, hout⟩ :=
    paintFold_spec (fun p => if p.x < (50 : Int) then fg else bg)
      (rowMajor ⟨⟨0, 0⟩, ⟨100, 10⟩⟩) ⟨data, ⟨W, H⟩⟩ hW0
      (by
        intro p hp
        obtain ⟨h1, h2, h3, h4⟩ := (hboxmem p).mp hp
        exact ⟨h1, h3, hidxlt p.x p.y h1 (by omega) h3 (by omega)⟩)
      (rowMajor_idx_nodup ⟨⟨0, 0⟩, ⟨100, 10⟩⟩ W hW0 (by decide) hW (by decide))
  have hsplit : ratTrunc (((0 : Int) : ℚ) +
      (((100 - 0 : Int)) : ℚ) * (1 / 2)) = 50 := by
    have hq : (((0 : Int) : ℚ)) +
        (((100 - 0 : Int)) : ℚ) * (1 / 2) = 50 := by norm_num
    rw [ratTrunc, hq, if_pos (by norm_num)]
    norm_num
  refine ⟨res, ?_, hlen', ?_⟩
  · have hact : Area.intersection ⟨⟨0, 0⟩, ⟨100, 10⟩⟩
        (Buffer.area ⟨data, ⟨W, H⟩⟩) = some ⟨⟨0, 0⟩, ⟨100, 10⟩⟩ := by
      unfold Area.intersection Buffer.area Dim.pos
      have e1 : min (100 : Int) W = 100 := min_eq_left hW
      have e2 : min (10 : Int) H = 10 := min_eq_left hH
      simp [e1, e2]
    unfold ProgressBar.draw_normal
    rw [hact]
    dsimp only
    rw [posList_eq_rowMajor ⟨⟨0, 0⟩, ⟨100, 10⟩⟩ (by decide)]
    simp only [hsplit]
    exact hfold
  · intro x y hx0 hxW hy0 hyH
    by_cases hbox : x < 100 ∧ y < 10
    · obtain ⟨hx100, hy10⟩ := hbox
      have hpmem : (⟨x, y⟩ : Pos) ∈ rowMajor ⟨⟨0, 0⟩, ⟨100, 10⟩⟩ :=
        (hboxmem ⟨x, y⟩).mpr ⟨hx0, hx100, hy0, hy10⟩
      have h1 := hmem ⟨x, y⟩ hpmem
      dsimp only at h1
      rw [h1]
      by_cases h50 : x < 50
      · rw [if_pos h50, if_pos ⟨h50, hy10⟩]
      · rw [if_neg h50, if_neg (by rintro ⟨hh1, _⟩; exact h50 hh1),
          if_pos ⟨hx100, hy10⟩]
    · have hnot : (y * W + x).toNat ∉
          (rowMajor ⟨⟨0, 0⟩, ⟨100, 10⟩⟩).map
            fun p => (p.y * W + p.x).toNat := by
        intro hcon
        simp only [List.mem_map] at hcon
        obtain ⟨q, hq, hqe⟩ := hcon
        obtain ⟨hq1, hq2, hq3, hq4⟩ := (hboxmem q).mp hq
        obtain ⟨hxx, hyy⟩ := grid_idx_inj hW0 hq1 (by omega) hq3
          hx0 hxW hy0 hqe
        exact hbox ⟨by omega, by omega⟩
      have h2 := hout _ hnot
      dsimp only at h2
      rw [h2, if_neg (by rintro ⟨hh1, hh2⟩; exact hbox ⟨by omega, hh2⟩),
        if_neg hbox]

/-- Witness for claim C9 at a 100x10 buffer of 1000 black pixels with a
red foreground and a blue background. -/
theorem progress_bar_half_split_witness :
    ∃ res : List Color,
      ProgressBar.draw_normal
          ⟨⟨⟨0, 0⟩, ⟨100, 10⟩⟩, 1 / 2, rgb 255 0 0, rgb 0 0 255⟩
          ⟨List.replicate 1000 Color.BLACK, ⟨100, 10⟩⟩ =
        some ⟨res, ⟨100, 10⟩⟩ ∧
      res.length = (List.replicate 1000 Color.BLACK).length ∧
      (∀ x y : Int, 0 ≤ x → x < 100 → 0 ≤ y → y < 10 →
        res[(y * 100 + x).toNat]? =
          if x < 50 ∧ y < 10 then
            ((List.replicate 1000 Color.BLACK)[(y * 100 + x).toNat]?).map
              fun c => c.premultiplied_over (rgb 255 0 0)
          else if x < 100 ∧ y < 10 then
            ((List.replicate 1000 Color.BLACK)[(y * 100 + x).toNat]?).map
              fun c => c.premultiplied_over (rgb 0 0 255)
          else (List.replicate 1000 Color.BLACK)[(y * 100 + x).toNat]?) :=
  progress_bar_half_split 100 10 (List.replicate 1000 Color.BLACK)
    (rgb 255 0 0) (rgb 0 0 255) (by norm_num) (by norm_num)
    (by rw [List.length_replicate]; rfl)

/-- Claim C1 (code bug): Buffer::apply does not re-clip the source extent
by the destination clip. With a 2x2 destination, a 2x2 source, the full
source area and dst_pos (1,1), area_apply returns the full source clip
((0,0),(2,2)) together with destination corner (1,1); apply_unchecked then
iterates the full 2x2 extent from that corner and indexes the destination
at up to row 2, column 2 - flat index 6 of a 4-pixel buffer - so the
slice access is fatal (modelled none) instead of the claimed silent
clipped blit. -/
theorem apply_partial_overlap_oob :
    Buffer.area_apply (Buffer.new ⟨2, 2⟩) (Buffer.area (Buffer.new ⟨2, 2⟩))
      ⟨⟨0, 0⟩, ⟨2, 2⟩⟩ ⟨1, 1⟩ = some (⟨⟨0, 0⟩, ⟨2, 2⟩⟩, ⟨1, 1⟩) ∧
    Buffer.premultiplied_over (Buffer.new ⟨2, 2⟩) (Buffer.new ⟨2, 2⟩)
      ⟨⟨0, 0⟩, ⟨2, 2⟩⟩ ⟨1, 1⟩ = none := by decide

end gfx
